import Mathlib

set_option maxHeartbeats 1000000
set_option linter.unreachableTactic false
set_option linter.unusedTactic false

/-!
Verification of `src/propositions/operators.py`: five converters that rewrite
a propositional formula into an equivalent one over a fixed operator basis.
The `Formula` data type, the root-label classifiers and the truth-table
evaluator live in `propositions/syntax.py` and `propositions/semantics.py`,
which are not part of this snapshot; they are modelled from the spec.
The five converters themselves are embedded directly from the source.
-/

/-- Modelled from the spec: a variable name is an identifier string starting
with a lowercase letter (`propositions/syntax.py` is not in the snapshot). -/
def is_variable (s : String) : Bool :=
  match s.data with
  | [] => false
  | c :: _ => 'a' ≤ c && c ≤ 'z'

/-- Modelled from the spec: the constants are the labels `T` and `F`. -/
def is_constant (s : String) : Bool :=
  s = "T" || s = "F"

/-- Modelled from the spec: the only unary operator is negation `~`. -/
def is_unary (s : String) : Bool :=
  s = "~"

/-- Modelled from the spec: the binary operators are
`&`, `|`, `->`, `+` (xor), `<->` (iff), `-&` (nand) and `-|` (nor). -/
def is_binary (s : String) : Bool :=
  s = "&" || s = "|" || s = "->" || s = "+" || s = "<->" || s = "-&" || s = "-|"

/-- Modelled from the spec: a formula is a tree whose nodes carry a root
label and zero, one or two children; the Python `Formula` object stores
`root` and the optional attributes `first` and `second`, and its arity is
determined at construction. -/
inductive Formula where
  | leaf (root : String)
  | unary (root : String) (first : Formula)
  | binary (root : String) (first second : Formula)
deriving DecidableEq

/-- Modelled from the spec: the constructor of the Python `Formula` class
asserts that a leaf is labelled by a variable or constant, a one-child node
by the unary operator, and a two-child node by a binary operator; the
constructible formulas are exactly the well-formed ones. -/
def WellFormed : Formula → Bool
  | .leaf r => is_variable r || is_constant r
  | .unary r x => is_unary r && WellFormed x
  | .binary r x y => is_binary r && WellFormed x && WellFormed y

/-- Modelled from the spec: truth-table evaluation of a formula under a
variable assignment (`propositions/semantics.py` is not in the snapshot;
the spec uses `evaluate` only as the equivalence oracle). -/
def evaluate (f : Formula) (v : String → Bool) : Bool :=
  match f with
  | .leaf r => if r = "T" then true else if r = "F" then false else v r
  | .unary _ x => !(evaluate x v)
  | .binary r x y =>
      let a := evaluate x v
      let b := evaluate y v
      if r = "&" then a && b
      else if r = "|" then a || b
      else if r = "->" then !a || b
      else if r = "+" then a != b
      else if r = "<->" then a == b
      else if r = "-&" then !(a && b)
      else if r = "-|" then !(a || b)
      else false

/-- The operator and constant labels of a formula all lie in `S`, and every
other leaf is a variable.  This captures the spec's basis-closure notion. -/
def UsesOnly (S : List String) : Formula → Bool
  | .leaf r => is_variable r || S.contains r
  | .unary r x => S.contains r && UsesOnly S x
  | .binary r x y => S.contains r && UsesOnly S x && UsesOnly S y

/-- The list of variable names occurring in a formula. -/
def varsOf : Formula → List String
  | .leaf r => if is_variable r then [r] else []
  | .unary _ x => varsOf x
  | .binary _ x y => varsOf x ++ varsOf y

/-- Termination weight of a binary operator for the converters that take
their detours through formulas built from the original sub-formulas. -/
def opWeight : String → Nat
  | "&" => 1
  | "|" => 1
  | "->" => 2
  | "+" => 4
  | "<->" => 4
  | "-&" => 2
  | "-|" => 2
  | _ => 1

/-- Multiplicative termination measure for `to_not_and`, `to_implies_not`
and `to_implies_false`. -/
def weight : Formula → Nat
  | .leaf _ => 1
  | .unary _ x => 1 + weight x
  | .binary r x y => opWeight r * (weight x + weight y)

theorem one_le_opWeight (s : String) : 1 ≤ opWeight s := by
  unfold opWeight
  split <;> omega

theorem one_le_weight (f : Formula) : 1 ≤ weight f := by
  induction f with
  | leaf r => simp [weight]
  | unary r x ih => simp [weight]
  | binary r x y ihx ihy =>
      have h1 := one_le_opWeight r
      calc 1 = 1 * 1 := by omega
        _ ≤ opWeight r * (weight x + weight y) :=
            Nat.mul_le_mul h1 (by omega)


/-- Embeds `to_not_and_or` from `src/propositions/operators.py`.  The Python
function has no final return statement, so an unrecognized binary root falls
through to an implicit `None`; this is modelled by the `Option` codomain
(the other `none` branches model cases the Python `Formula` constructor
cannot build). -/
def to_not_and_or : Formula → Option Formula
  | .leaf root =>
      if is_variable root then some (.leaf root)
      else if is_constant root then
        if root = "T" then
          some (.binary "|" (.leaf "p") (.unary "~" (.leaf "p")))
        else
          some (.binary "&" (.leaf "p") (.unary "~" (.leaf "p")))
      else none
  | .unary _ x =>
      match to_not_and_or x with
      | some x' => some (.unary "~" x')
      | none => none
  | .binary root x y =>
      match to_not_and_or x, to_not_and_or y with
      | some left, some right =>
          if root = "&" || root = "|" then some (.binary root left right)
          else if root = "->" then some (.binary "|" (.unary "~" left) right)
          else if root = "+" then
            some (.binary "|" (.binary "&" left (.unary "~" right))
                              (.binary "&" (.unary "~" left) right))
          else if root = "<->" then
            some (.binary "|" (.binary "&" left right)
                              (.binary "&" (.unary "~" left) (.unary "~" right)))
          else if root = "-&" then some (.unary "~" (.binary "&" left right))
          else if root = "-|" then some (.unary "~" (.binary "|" left right))
          else none
      | _, _ => none

/-- Embeds `to_not_and` from `src/propositions/operators.py`. -/
def to_not_and (formula : Formula) : Formula :=
  match formula with
  | .leaf root =>
      if is_variable root then .leaf root
      else if root = "T" then
        .unary "~" (.binary "&" (.leaf "p") (.unary "~" (.leaf "p")))
      else
        .binary "&" (.leaf "p") (.unary "~" (.leaf "p"))
  | .unary _ x => .unary "~" (to_not_and x)
  | .binary root x y =>
      if root = "&" then .binary "&" (to_not_and x) (to_not_and y)
      else if root = "|" then
        .unary "~" (.binary "&" (.unary "~" (to_not_and x))
                                (.unary "~" (to_not_and y)))
      else if root = "->" then
        to_not_and (.binary "|" (.unary "~" x) y)
      else if root = "+" then
        to_not_and (.binary "|" (.binary "&" x (.unary "~" y))
                                (.binary "&" (.unary "~" x) y))
      else if root = "<->" then
        to_not_and (.binary "|" (.binary "&" x y)
                                (.binary "&" (.unary "~" x) (.unary "~" y)))
      else if root = "-&" then
        .unary "~" (.binary "&" (to_not_and x) (to_not_and y))
      else if root = "-|" then
        to_not_and (.unary "~" (.binary "|" x y))
      else formula
termination_by weight formula
decreasing_by
  all_goals simp_wf
  all_goals simp [weight, opWeight, *]
  all_goals (have hx := one_le_weight x; have hy := one_le_weight y; omega)

/-- Embeds `to_implies_not` from `src/propositions/operators.py`. -/
def to_implies_not (formula : Formula) : Formula :=
  match formula with
  | .leaf root =>
      if is_variable root then .leaf root
      else if root = "T" then
        .binary "->" (.leaf "p") (.leaf "p")
      else
        .unary "~" (.binary "->" (.leaf "p") (.leaf "p"))
  | .unary _ x => .unary "~" (to_implies_not x)
  | .binary root x y =>
      if root = "->" then .binary "->" (to_implies_not x) (to_implies_not y)
      else if root = "&" then
        .unary "~" (.binary "->" (to_implies_not x) (.unary "~" (to_implies_not y)))
      else if root = "|" then
        .binary "->" (.unary "~" (to_implies_not x)) (to_implies_not y)
      else if root = "+" then
        to_implies_not (.binary "|" (.binary "&" x (.unary "~" y))
                                    (.binary "&" (.unary "~" x) y))
      else if root = "<->" then
        to_implies_not (.binary "|" (.binary "&" x y)
                                    (.binary "&" (.unary "~" x) (.unary "~" y)))
      else if root = "-&" then
        to_implies_not (.unary "~" (.binary "&" x y))
      else if root = "-|" then
        to_implies_not (.unary "~" (.binary "|" x y))
      else formula
termination_by weight formula
decreasing_by
  all_goals simp_wf
  all_goals simp [weight, opWeight, *]
  all_goals (have hx := one_le_weight x; have hy := one_le_weight y; omega)

/-- Embeds `to_implies_false` from `src/propositions/operators.py`. -/
def to_implies_false (formula : Formula) : Formula :=
  match formula with
  | .leaf root =>
      if is_variable root then .leaf root
      else if root = "F" then .leaf "F"
      else .binary "->" (.leaf "F") (.leaf "F")
  | .unary _ x => .binary "->" (to_implies_false x) (.leaf "F")
  | .binary root x y =>
      if root = "->" then .binary "->" (to_implies_false x) (to_implies_false y)
      else if root = "&" then
        .binary "->"
          (.binary "->" (to_implies_false x)
                        (.binary "->" (to_implies_false y) (.leaf "F")))
          (.leaf "F")
      else if root = "|" then
        .binary "->" (.binary "->" (to_implies_false x) (.leaf "F")) (to_implies_false y)
      else if root = "+" then
        to_implies_false (.binary "|" (.binary "&" x (.unary "~" y))
                                      (.binary "&" (.unary "~" x) y))
      else if root = "<->" then
        to_implies_false (.binary "|" (.binary "&" x y)
                                      (.binary "&" (.unary "~" x) (.unary "~" y)))
      else if root = "-&" then
        to_implies_false (.unary "~" (.binary "&" x y))
      else if root = "-|" then
        to_implies_false (.unary "~" (.binary "|" x y))
      else formula
termination_by weight formula
decreasing_by
  all_goals simp_wf
  all_goals simp [weight, opWeight, *]
  all_goals (have hx := one_le_weight x; have hy := one_le_weight y; omega)

/-- Termination weight of a binary operator for `to_nand`: operators that
generate detours cost more than the detour they generate, and `nand` itself
is free, so that fully converted output has weight zero. -/
def nandOpWeight : String → Nat
  | "&" => 1
  | "|" => 1
  | "->" => 1
  | "+" => 2
  | "<->" => 3
  | "-|" => 2
  | _ => 0

/-- Termination measure for `to_nand`: weight of the not-yet-eliminated
operators.  Every formula `to_nand` produces has measure zero. -/
def nandWeight : Formula → Nat
  | .leaf _ => 0
  | .unary _ x => 1 + nandWeight x
  | .binary r x y => nandOpWeight r + nandWeight x + nandWeight y

/-- Node count, the tie-breaking component of the measure of `to_nand`. -/
def fsize : Formula → Nat
  | .leaf _ => 1
  | .unary _ x => 1 + fsize x
  | .binary _ x y => 1 + fsize x + fsize y


theorem prodLexHelper {a1 a2 b1 b2 : Nat}
    (h : a1 < b1 ∨ (a1 ≤ b1 ∧ a2 < b2)) :
    Prod.Lex (· < ·) (· < ·) (a1, a2) (b1, b2) := by
  rcases h with h | ⟨h1, h2⟩
  · exact Prod.Lex.left _ _ h
  · rcases Nat.lt_or_ge a1 b1 with h | h
    · exact Prod.Lex.left _ _ h
    · have heq : a1 = b1 := Nat.le_antisymm h1 h
      subst heq
      exact Prod.Lex.right _ h2

/-- Embeds `to_nand` from `src/propositions/operators.py`.  The result is
packaged with the fact that it has `nandWeight` zero, which justifies the
recursive call the source makes, in the xor case, on a formula rebuilt from
two earlier results of the function itself.  The final fall-through branch,
unreachable for well-formed input because every binary operator has a case,
rebuilds the node from converted children so the weight invariant holds
(the source returns the original formula there). -/
def to_nand_core : Formula → { g : Formula // nandWeight g = 0 }
  | .leaf root =>
      if is_variable root then ⟨.leaf root, rfl⟩
      else if root = "T" then
        ⟨.binary "-&" (.binary "-&" (.leaf "p") (.leaf "p"))
                      (.binary "-&" (.leaf "p") (.leaf "p")), by simp [nandWeight, nandOpWeight]⟩
      else
        ⟨.binary "-&" (.leaf "p") (.binary "-&" (.leaf "p") (.leaf "p")), by simp [nandWeight, nandOpWeight]⟩
  | .unary _ x =>
      match to_nand_core x with
      | ⟨inner, hinner⟩ =>
        ⟨.binary "-&" inner inner, by simp [nandWeight, nandOpWeight, hinner]⟩
  | .binary root x y =>
      if _h1 : root = "&" then
        match to_nand_core x, to_nand_core y with
        | ⟨left, hleft⟩, ⟨right, hright⟩ =>
          ⟨.binary "-&" (.binary "-&" left right) (.binary "-&" left right),
           by simp [nandWeight, nandOpWeight, hleft, hright]⟩
      else if _h2 : root = "|" then
        match to_nand_core x, to_nand_core y with
        | ⟨left, hleft⟩, ⟨right, hright⟩ =>
          ⟨.binary "-&" (.binary "-&" left left) (.binary "-&" right right),
           by simp [nandWeight, nandOpWeight, hleft, hright]⟩
      else if _h3 : root = "->" then
        match to_nand_core x, to_nand_core y with
        | ⟨left, hleft⟩, ⟨right, hright⟩ =>
          ⟨.binary "-&" (.binary "-&" left left) right,
           by simp [nandWeight, nandOpWeight, hleft, hright]⟩
      else if _h4 : root = "+" then
        match to_nand_core (.binary "|" x y), to_nand_core (.binary "&" x y) with
        | ⟨a_or_b, hor⟩, ⟨a_and_b, hand⟩ =>
          to_nand_core (.binary "&" a_or_b (.binary "-&" a_and_b a_and_b))
      else if _h5 : root = "<->" then
        match to_nand_core (.binary "+" x y) with
        | ⟨xor, hxor⟩ =>
          ⟨.binary "-&" xor xor, by simp [nandWeight, nandOpWeight, hxor]⟩
      else if _h6 : root = "-&" then
        match to_nand_core x, to_nand_core y with
        | ⟨left, hleft⟩, ⟨right, hright⟩ =>
          ⟨.binary "-&" left right, by simp [nandWeight, nandOpWeight, hleft, hright]⟩
      else if _h7 : root = "-|" then
        match to_nand_core (.binary "|" x y) with
        | ⟨or_formula, hor⟩ =>
          ⟨.binary "-&" or_formula or_formula,
           by simp [nandWeight, nandOpWeight, hor]⟩
      else
        match to_nand_core x, to_nand_core y with
        | ⟨left, hleft⟩, ⟨right, hright⟩ =>
          ⟨.binary root left right,
           by
             have hz : nandOpWeight root = 0 := by
               unfold nandOpWeight
               split <;> simp_all
             simp [nandWeight, hz, hleft, hright]⟩
termination_by f => (nandWeight f, fsize f)
decreasing_by
  all_goals apply prodLexHelper
  all_goals simp [nandWeight, nandOpWeight, fsize, *]
  all_goals omega

/-- Embeds `to_nand` from `src/propositions/operators.py` (the value
component of `to_nand_core`). -/
def to_nand (formula : Formula) : Formula :=
  (to_nand_core formula).1

@[simp] theorem is_variable_p : is_variable "p" = true := rfl

@[simp] theorem is_variable_T : is_variable "T" = false := rfl

@[simp] theorem is_variable_F : is_variable "F" = false := rfl

@[simp] theorem is_variable_not : is_variable "~" = false := rfl

@[simp] theorem is_variable_and : is_variable "&" = false := rfl

@[simp] theorem is_variable_or : is_variable "|" = false := rfl

@[simp] theorem is_variable_imp : is_variable "->" = false := rfl

@[simp] theorem is_variable_xor : is_variable "+" = false := rfl

@[simp] theorem is_variable_iff : is_variable "<->" = false := rfl

@[simp] theorem is_variable_nand : is_variable "-&" = false := rfl

@[simp] theorem is_variable_nor : is_variable "-|" = false := rfl

theorem to_nand_leaf_var (r : String) (h : is_variable r = true) :
    to_nand (.leaf r) = .leaf r := by
  simp [to_nand, to_nand_core, h]

theorem to_nand_T :
    to_nand (.leaf "T") =
      .binary "-&" (.binary "-&" (.leaf "p") (.leaf "p"))
                   (.binary "-&" (.leaf "p") (.leaf "p")) := by
  simp [to_nand, to_nand_core]

theorem to_nand_F :
    to_nand (.leaf "F") =
      .binary "-&" (.leaf "p") (.binary "-&" (.leaf "p") (.leaf "p")) := by
  simp [to_nand, to_nand_core]

theorem to_nand_unary (r : String) (x : Formula) :
    to_nand (.unary r x) = .binary "-&" (to_nand x) (to_nand x) := by
  simp [to_nand, to_nand_core]

theorem to_nand_and (x y : Formula) :
    to_nand (.binary "&" x y) =
      .binary "-&" (.binary "-&" (to_nand x) (to_nand y))
                   (.binary "-&" (to_nand x) (to_nand y)) := by
  simp [to_nand, to_nand_core]

theorem to_nand_or (x y : Formula) :
    to_nand (.binary "|" x y) =
      .binary "-&" (.binary "-&" (to_nand x) (to_nand x))
                   (.binary "-&" (to_nand y) (to_nand y)) := by
  simp [to_nand, to_nand_core]

theorem to_nand_imp (x y : Formula) :
    to_nand (.binary "->" x y) =
      .binary "-&" (.binary "-&" (to_nand x) (to_nand x)) (to_nand y) := by
  simp [to_nand, to_nand_core]

theorem to_nand_xor (x y : Formula) :
    to_nand (.binary "+" x y) =
      to_nand (.binary "&" (to_nand (.binary "|" x y))
                 (.binary "-&" (to_nand (.binary "&" x y))
                               (to_nand (.binary "&" x y)))) := by
  simp [to_nand]
  rw [to_nand_core]
  simp

theorem to_nand_iff (x y : Formula) :
    to_nand (.binary "<->" x y) =
      .binary "-&" (to_nand (.binary "+" x y)) (to_nand (.binary "+" x y)) := by
  simp [to_nand]
  rw [to_nand_core]
  simp

theorem to_nand_nand (x y : Formula) :
    to_nand (.binary "-&" x y) =
      .binary "-&" (to_nand x) (to_nand y) := by
  simp [to_nand]
  rw [to_nand_core]
  simp

theorem to_nand_nor (x y : Formula) :
    to_nand (.binary "-|" x y) =
      .binary "-&" (to_nand (.binary "|" x y)) (to_nand (.binary "|" x y)) := by
  simp [to_nand]
  rw [to_nand_core]
  simp

/-- Combined specification of `to_not_and_or` on well-formed input: it
succeeds, and its output is well-formed, lies in the basis, has the same
truth table, and adds no variable beyond the reserved `p`. -/
theorem nao_spec (f : Formula) (h : WellFormed f = true) :
    ∃ g, to_not_and_or f = some g ∧ WellFormed g = true ∧
      UsesOnly ["~", "&", "|"] g = true ∧
      (∀ v, evaluate g v = evaluate f v) ∧
      (∀ s, s ∈ varsOf g → s ∈ varsOf f ∨ s = "p") := by
  induction f with
  | leaf r =>
      simp only [WellFormed, Bool.or_eq_true] at h
      rcases h with hv | hc
      · refine ⟨.leaf r, ?_, ?_, ?_, ?_, ?_⟩ <;>
          simp [to_not_and_or, hv, WellFormed, UsesOnly, varsOf]
      · simp only [is_constant, Bool.or_eq_true, decide_eq_true_eq] at hc
        rcases hc with rfl | rfl
        · refine ⟨.binary "|" (.leaf "p") (.unary "~" (.leaf "p")), ?_, ?_, ?_, ?_, ?_⟩
          · simp [to_not_and_or, is_constant]
          · simp [WellFormed, is_unary, is_binary]
          · simp [UsesOnly]
          · intro v
            simp [evaluate]
          · intro s hs
            simp [varsOf] at hs
            simp [hs]
        · refine ⟨.binary "&" (.leaf "p") (.unary "~" (.leaf "p")), ?_, ?_, ?_, ?_, ?_⟩
          · simp [to_not_and_or, is_constant]
          · simp [WellFormed, is_unary, is_binary]
          · simp [UsesOnly]
          · intro v
            simp [evaluate]
          · intro s hs
            simp [varsOf] at hs
            simp [hs]
  | unary r x ih =>
      simp only [WellFormed, Bool.and_eq_true] at h
      obtain ⟨g, hg, hwf, huse, heval, hvars⟩ := ih h.2
      refine ⟨.unary "~" g, ?_, ?_, ?_, ?_, ?_⟩
      · simp [to_not_and_or, hg]
      · simp [WellFormed, is_unary, hwf]
      · simp [UsesOnly, huse]
      · intro v
        simp [evaluate, heval]
      · intro s hs
        simp only [varsOf] at hs
        exact hvars s hs
  | binary r x y ihx ihy =>
      simp only [WellFormed, Bool.and_eq_true] at h
      obtain ⟨⟨hb, hwx⟩, hwy⟩ := h
      obtain ⟨gx, hgx, hwfx, husex, hevalx, hvarsx⟩ := ihx hwx
      obtain ⟨gy, hgy, hwfy, husey, hevaly, hvarsy⟩ := ihy hwy
      have hmemx : ∀ s, s ∈ varsOf gx → s ∈ varsOf x ++ varsOf y ∨ s = "p" := by
        intro s hs
        rcases hvarsx s hs with h' | h'
        · exact Or.inl (List.mem_append_left _ h')
        · exact Or.inr h'
      have hmemy : ∀ s, s ∈ varsOf gy → s ∈ varsOf x ++ varsOf y ∨ s = "p" := by
        intro s hs
        rcases hvarsy s hs with h' | h'
        · exact Or.inl (List.mem_append_right _ h')
        · exact Or.inr h'
      simp only [is_binary, Bool.or_eq_true, decide_eq_true_eq] at hb
      rcases hb with (((((rfl | rfl) | rfl) | rfl) | rfl) | rfl) | rfl
      · refine ⟨.binary "&" gx gy, ?_, ?_, ?_, ?_, ?_⟩
        · simp [to_not_and_or, hgx, hgy]
        · simp [WellFormed, is_binary, hwfx, hwfy]
        · simp [UsesOnly, husex, husey]
        · intro v
          simp [evaluate, hevalx, hevaly]
        · intro s hs
          simp only [varsOf, List.mem_append] at hs
          rcases hs with hs | hs
          · exact hmemx s hs
          · exact hmemy s hs
      · refine ⟨.binary "|" gx gy, ?_, ?_, ?_, ?_, ?_⟩
        · simp [to_not_and_or, hgx, hgy]
        · simp [WellFormed, is_binary, hwfx, hwfy]
        · simp [UsesOnly, husex, husey]
        · intro v
          simp [evaluate, hevalx, hevaly]
        · intro s hs
          simp only [varsOf, List.mem_append] at hs
          rcases hs with hs | hs
          · exact hmemx s hs
          · exact hmemy s hs
      · refine ⟨.binary "|" (.unary "~" gx) gy, ?_, ?_, ?_, ?_, ?_⟩
        · simp [to_not_and_or, hgx, hgy]
        · simp [WellFormed, is_binary, is_unary, hwfx, hwfy]
        · simp [UsesOnly, husex, husey]
        · intro v
          simp [evaluate, hevalx, hevaly]
          try cases evaluate x v <;> cases evaluate y v <;> simp
        · intro s hs
          simp only [varsOf, List.mem_append] at hs
          rcases hs with hs | hs
          · exact hmemx s hs
          · exact hmemy s hs
      · refine ⟨.binary "|" (.binary "&" gx (.unary "~" gy)) (.binary "&" (.unary "~" gx) gy), ?_, ?_, ?_, ?_, ?_⟩
        · simp [to_not_and_or, hgx, hgy]
        · simp [WellFormed, is_binary, is_unary, hwfx, hwfy]
        · simp [UsesOnly, husex, husey]
        · intro v
          simp [evaluate, hevalx, hevaly]
          try cases evaluate x v <;> cases evaluate y v <;> simp
        · intro s hs
          simp only [varsOf, List.mem_append] at hs
          rcases hs with (hs | hs) | (hs | hs)
          · exact hmemx s hs
          · exact hmemy s hs
          · exact hmemx s hs
          · exact hmemy s hs
      · refine ⟨.binary "|" (.binary "&" gx gy) (.binary "&" (.unary "~" gx) (.unary "~" gy)), ?_, ?_, ?_, ?_, ?_⟩
        · simp [to_not_and_or, hgx, hgy]
        · simp [WellFormed, is_binary, is_unary, hwfx, hwfy]
        · simp [UsesOnly, husex, husey]
        · intro v
          simp [evaluate, hevalx, hevaly]
          try cases evaluate x v <;> cases evaluate y v <;> simp
        · intro s hs
          simp only [varsOf, List.mem_append] at hs
          rcases hs with (hs | hs) | (hs | hs)
          · exact hmemx s hs
          · exact hmemy s hs
          · exact hmemx s hs
          · exact hmemy s hs
      · refine ⟨.unary "~" (.binary "&" gx gy), ?_, ?_, ?_, ?_, ?_⟩
        · simp [to_not_and_or, hgx, hgy]
        · simp [WellFormed, is_binary, is_unary, hwfx, hwfy]
        · simp [UsesOnly, husex, husey]
        · intro v
          simp [evaluate, hevalx, hevaly]
        · intro s hs
          simp only [varsOf, List.mem_append] at hs
          rcases hs with hs | hs
          · exact hmemx s hs
          · exact hmemy s hs
      · refine ⟨.unary "~" (.binary "|" gx gy), ?_, ?_, ?_, ?_, ?_⟩
        · simp [to_not_and_or, hgx, hgy]
        · simp [WellFormed, is_binary, is_unary, hwfx, hwfy]
        · simp [UsesOnly, husex, husey]
        · intro v
          simp [evaluate, hevalx, hevaly]
        · intro s hs
          simp only [varsOf, List.mem_append] at hs
          rcases hs with hs | hs
          · exact hmemx s hs
          · exact hmemy s hs

/-- Combined specification of `to_not_and` on well-formed input. -/
theorem na_spec (f : Formula) :
    WellFormed f = true →
      WellFormed (to_not_and f) = true ∧
      UsesOnly ["~", "&"] (to_not_and f) = true ∧
      (∀ v, evaluate (to_not_and f) v = evaluate f v) ∧
      (∀ s, s ∈ varsOf (to_not_and f) → s ∈ varsOf f ∨ s = "p") := by
  induction f using to_not_and.induct with
  | case1 r h =>
      intro _
      rw [show to_not_and (.leaf r) = .leaf r from by simp [to_not_and, h]]
      refine ⟨?_, ?_, ?_, ?_⟩
      · simp [WellFormed, h]
      · simp [UsesOnly, h]
      · intro v; rfl
      · intro s hs; exact Or.inl hs
  | case2 h =>
      intro _
      rw [show to_not_and (.leaf "T") =
            .unary "~" (.binary "&" (.leaf "p") (.unary "~" (.leaf "p"))) from by
          simp [to_not_and]]
      refine ⟨by decide, by decide, ?_, ?_⟩
      · intro v; simp [evaluate]
      · intro s hs; right; simpa [varsOf] using hs
  | case3 r h1 h2 =>
      intro h
      simp only [WellFormed, Bool.or_eq_true] at h
      rcases h with hv | hc
      · exact absurd hv (by simpa using h1)
      · simp only [is_constant, Bool.or_eq_true, decide_eq_true_eq] at hc
        rcases hc with rfl | rfl
        · exact absurd rfl h2
        · rw [show to_not_and (.leaf "F") =
                .binary "&" (.leaf "p") (.unary "~" (.leaf "p")) from by
              simp [to_not_and]]
          refine ⟨by decide, by decide, ?_, ?_⟩
          · intro v; simp [evaluate]
          · intro s hs; right; simpa [varsOf] using hs
  | case4 r x ih =>
      intro h
      simp only [WellFormed, Bool.and_eq_true] at h
      obtain ⟨h1, h2, h3, h4⟩ := ih h.2
      rw [show to_not_and (.unary r x) = .unary "~" (to_not_and x) from by
          simp [to_not_and]]
      refine ⟨by simp [WellFormed, is_unary, h1], by simp [UsesOnly, h2], ?_, ?_⟩
      · intro v; simp [evaluate, h3]
      · intro s hs
        exact h4 s (by simpa [varsOf] using hs)
  | case5 x y ihx ihy =>
      intro h
      simp only [WellFormed, Bool.and_eq_true] at h
      obtain ⟨⟨_, hwx⟩, hwy⟩ := h
      obtain ⟨h1x, h2x, h3x, h4x⟩ := ihx hwx
      obtain ⟨h1y, h2y, h3y, h4y⟩ := ihy hwy
      rw [show to_not_and (.binary "&" x y) =
            .binary "&" (to_not_and x) (to_not_and y) from by simp [to_not_and]]
      refine ⟨by simp [WellFormed, is_binary, h1x, h1y],
              by simp [UsesOnly, h2x, h2y], ?_, ?_⟩
      · intro v; simp [evaluate, h3x, h3y]
      · intro s hs
        simp only [varsOf, List.mem_append] at hs ⊢
        rcases hs with hs | hs
        · have := h4x s hs; tauto
        · have := h4y s hs; tauto
  | case6 x y hne ihx ihy =>
      intro h
      simp only [WellFormed, Bool.and_eq_true] at h
      obtain ⟨⟨_, hwx⟩, hwy⟩ := h
      obtain ⟨h1x, h2x, h3x, h4x⟩ := ihx hwx
      obtain ⟨h1y, h2y, h3y, h4y⟩ := ihy hwy
      rw [show to_not_and (.binary "|" x y) =
            .unary "~" (.binary "&" (.unary "~" (to_not_and x))
                                    (.unary "~" (to_not_and y))) from by
          simp [to_not_and]]
      refine ⟨by simp [WellFormed, is_unary, is_binary, h1x, h1y],
              by simp [UsesOnly, h2x, h2y], ?_, ?_⟩
      · intro v
        simp [evaluate, h3x, h3y]
        try cases evaluate x v <;> cases evaluate y v <;> simp
      · intro s hs
        simp only [varsOf, List.mem_append] at hs ⊢
        rcases hs with hs | hs
        · have := h4x s hs; tauto
        · have := h4y s hs; tauto
  | case7 x y hne1 hne2 ih =>
      intro h
      simp only [WellFormed, Bool.and_eq_true] at h
      obtain ⟨⟨_, hwx⟩, hwy⟩ := h
      have hdet : WellFormed (Formula.binary "|" (Formula.unary "~" x) y) = true := by
        simp [WellFormed, is_binary, is_unary, hwx, hwy]
      obtain ⟨h1, h2, h3, h4⟩ := ih hdet
      rw [show to_not_and (.binary "->" x y) =
            to_not_and (.binary "|" (.unary "~" x) y) from by simp [to_not_and]]
      refine ⟨h1, h2, ?_, ?_⟩
      · intro v
        rw [h3 v]
        simp [evaluate]
        try cases evaluate x v <;> cases evaluate y v <;> simp
      · intro s hs
        rcases h4 s hs with hs' | hs'
        · left
          simp only [varsOf, List.mem_append] at hs' ⊢
          tauto
        · right; exact hs'
  | case8 x y hne1 hne2 hne3 ih =>
      intro h
      simp only [WellFormed, Bool.and_eq_true] at h
      obtain ⟨⟨_, hwx⟩, hwy⟩ := h
      have hdet : WellFormed (Formula.binary "|"
          (Formula.binary "&" x (Formula.unary "~" y))
          (Formula.binary "&" (Formula.unary "~" x) y)) = true := by
        simp [WellFormed, is_binary, is_unary, hwx, hwy]
      obtain ⟨h1, h2, h3, h4⟩ := ih hdet
      rw [show to_not_and (.binary "+" x y) =
            to_not_and (.binary "|" (.binary "&" x (.unary "~" y))
                                    (.binary "&" (.unary "~" x) y)) from by
          simp [to_not_and]]
      refine ⟨h1, h2, ?_, ?_⟩
      · intro v
        rw [h3 v]
        simp [evaluate]
        try cases evaluate x v <;> cases evaluate y v <;> simp
      · intro s hs
        rcases h4 s hs with hs' | hs'
        · left
          simp only [varsOf, List.mem_append] at hs' ⊢
          tauto
        · right; exact hs'
  | case9 x y hne1 hne2 hne3 hne4 ih =>
      intro h
      simp only [WellFormed, Bool.and_eq_true] at h
      obtain ⟨⟨_, hwx⟩, hwy⟩ := h
      have hdet : WellFormed (Formula.binary "|"
          (Formula.binary "&" x y)
          (Formula.binary "&" (Formula.unary "~" x) (Formula.unary "~" y))) = true := by
        simp [WellFormed, is_binary, is_unary, hwx, hwy]
      obtain ⟨h1, h2, h3, h4⟩ := ih hdet
      rw [show to_not_and (.binary "<->" x y) =
            to_not_and (.binary "|" (.binary "&" x y)
                                    (.binary "&" (.unary "~" x) (.unary "~" y))) from by
          simp [to_not_and]]
      refine ⟨h1, h2, ?_, ?_⟩
      · intro v
        rw [h3 v]
        simp [evaluate]
        try cases evaluate x v <;> cases evaluate y v <;> simp
      · intro s hs
        rcases h4 s hs with hs' | hs'
        · left
          simp only [varsOf, List.mem_append] at hs' ⊢
          tauto
        · right; exact hs'
  | case10 x y hne1 hne2 hne3 hne4 hne5 ihx ihy =>
      intro h
      simp only [WellFormed, Bool.and_eq_true] at h
      obtain ⟨⟨_, hwx⟩, hwy⟩ := h
      obtain ⟨h1x, h2x, h3x, h4x⟩ := ihx hwx
      obtain ⟨h1y, h2y, h3y, h4y⟩ := ihy hwy
      rw [show to_not_and (.binary "-&" x y) =
            .unary "~" (.binary "&" (to_not_and x) (to_not_and y)) from by
          simp [to_not_and]]
      refine ⟨by simp [WellFormed, is_unary, is_binary, h1x, h1y],
              by simp [UsesOnly, h2x, h2y], ?_, ?_⟩
      · intro v
        simp [evaluate, h3x, h3y]
      · intro s hs
        simp only [varsOf, List.mem_append] at hs ⊢
        rcases hs with hs | hs
        · have := h4x s hs; tauto
        · have := h4y s hs; tauto
  | case11 x y hne1 hne2 hne3 hne4 hne5 hne6 ih =>
      intro h
      simp only [WellFormed, Bool.and_eq_true] at h
      obtain ⟨⟨_, hwx⟩, hwy⟩ := h
      have hdet : WellFormed (Formula.unary "~" (Formula.binary "|" x y)) = true := by
        simp [WellFormed, is_binary, is_unary, hwx, hwy]
      obtain ⟨h1, h2, h3, h4⟩ := ih hdet
      rw [show to_not_and (.binary "-|" x y) =
            to_not_and (.unary "~" (.binary "|" x y)) from by simp [to_not_and]]
      refine ⟨h1, h2, ?_, ?_⟩
      · intro v
        rw [h3 v]
        simp [evaluate]
      · intro s hs
        rcases h4 s hs with hs' | hs'
        · left
          simp only [varsOf, List.mem_append] at hs' ⊢
          tauto
        · right; exact hs'
  | case12 r x y hne1 hne2 hne3 hne4 hne5 hne6 hne7 =>
      intro h
      simp only [WellFormed, Bool.and_eq_true] at h
      obtain ⟨⟨hb, _⟩, _⟩ := h
      simp only [is_binary, Bool.or_eq_true, decide_eq_true_eq] at hb
      tauto

/-- Combined specification of `to_implies_not` on well-formed input. -/
theorem impnot_spec (f : Formula) :
    WellFormed f = true →
      WellFormed (to_implies_not f) = true ∧
      UsesOnly ["->", "~"] (to_implies_not f) = true ∧
      (∀ v, evaluate (to_implies_not f) v = evaluate f v) ∧
      (∀ s, s ∈ varsOf (to_implies_not f) → s ∈ varsOf f ∨ s = "p") := by
  induction f using to_implies_not.induct with
  | case1 r h =>
      intro _
      rw [show to_implies_not (.leaf r) = .leaf r from by simp [to_implies_not, h]]
      refine ⟨?_, ?_, ?_, ?_⟩
      · simp [WellFormed, h]
      · simp [UsesOnly, h]
      · intro v; rfl
      · intro s hs; exact Or.inl hs
  | case2 h =>
      intro _
      rw [show to_implies_not (.leaf "T") =
            .binary "->" (.leaf "p") (.leaf "p") from by simp [to_implies_not]]
      refine ⟨by decide, by decide, ?_, ?_⟩
      · intro v; simp [evaluate]
      · intro s hs; right; simpa [varsOf] using hs
  | case3 r h1 h2 =>
      intro h
      simp only [WellFormed, Bool.or_eq_true] at h
      rcases h with hv | hc
      · exact absurd hv (by simpa using h1)
      · simp only [is_constant, Bool.or_eq_true, decide_eq_true_eq] at hc
        rcases hc with rfl | rfl
        · exact absurd rfl h2
        · rw [show to_implies_not (.leaf "F") =
                .unary "~" (.binary "->" (.leaf "p") (.leaf "p")) from by
              simp [to_implies_not]]
          refine ⟨by decide, by decide, ?_, ?_⟩
          · intro v; simp [evaluate]
          · intro s hs; right; simpa [varsOf] using hs
  | case4 r x ih =>
      intro h
      simp only [WellFormed, Bool.and_eq_true] at h
      obtain ⟨h1, h2, h3, h4⟩ := ih h.2
      rw [show to_implies_not (.unary r x) = .unary "~" (to_implies_not x) from by
          simp [to_implies_not]]
      refine ⟨by simp [WellFormed, is_unary, h1], by simp [UsesOnly, h2], ?_, ?_⟩
      · intro v; simp [evaluate, h3]
      · intro s hs
        exact h4 s (by simpa [varsOf] using hs)
  | case5 x y ihx ihy =>
      intro h
      simp only [WellFormed, Bool.and_eq_true] at h
      obtain ⟨⟨_, hwx⟩, hwy⟩ := h
      obtain ⟨h1x, h2x, h3x, h4x⟩ := ihx hwx
      obtain ⟨h1y, h2y, h3y, h4y⟩ := ihy hwy
      rw [show to_implies_not (.binary "->" x y) =
            .binary "->" (to_implies_not x) (to_implies_not y) from by
          simp [to_implies_not]]
      refine ⟨by simp [WellFormed, is_binary, h1x, h1y],
              by simp [UsesOnly, h2x, h2y], ?_, ?_⟩
      · intro v; simp [evaluate, h3x, h3y]
      · intro s hs
        simp only [varsOf, List.mem_append] at hs ⊢
        rcases hs with hs | hs
        · have := h4x s hs; tauto
        · have := h4y s hs; tauto
  | case6 x y hne ihx ihy =>
      intro h
      simp only [WellFormed, Bool.and_eq_true] at h
      obtain ⟨⟨_, hwx⟩, hwy⟩ := h
      obtain ⟨h1x, h2x, h3x, h4x⟩ := ihx hwx
      obtain ⟨h1y, h2y, h3y, h4y⟩ := ihy hwy
      rw [show to_implies_not (.binary "&" x y) =
            .unary "~" (.binary "->" (to_implies_not x)
                                     (.unary "~" (to_implies_not y))) from by
          simp [to_implies_not]]
      refine ⟨by simp [WellFormed, is_unary, is_binary, h1x, h1y],
              by simp [UsesOnly, h2x, h2y], ?_, ?_⟩
      · intro v
        simp [evaluate, h3x, h3y]
        try cases evaluate x v <;> cases evaluate y v <;> simp
      · intro s hs
        simp only [varsOf, List.mem_append] at hs ⊢
        rcases hs with hs | hs
        · have := h4x s hs; tauto
        · have := h4y s hs; tauto
  | case7 x y hne1 hne2 ihx ihy =>
      intro h
      simp only [WellFormed, Bool.and_eq_true] at h
      obtain ⟨⟨_, hwx⟩, hwy⟩ := h
      obtain ⟨h1x, h2x, h3x, h4x⟩ := ihx hwx
      obtain ⟨h1y, h2y, h3y, h4y⟩ := ihy hwy
      rw [show to_implies_not (.binary "|" x y) =
            .binary "->" (.unary "~" (to_implies_not x)) (to_implies_not y) from by
          simp [to_implies_not]]
      refine ⟨by simp [WellFormed, is_unary, is_binary, h1x, h1y],
              by simp [UsesOnly, h2x, h2y], ?_, ?_⟩
      · intro v
        simp [evaluate, h3x, h3y]
        try cases evaluate x v <;> cases evaluate y v <;> simp
      · intro s hs
        simp only [varsOf, List.mem_append] at hs ⊢
        rcases hs with hs | hs
        · have := h4x s hs; tauto
        · have := h4y s hs; tauto
  | case8 x y hne1 hne2 hne3 ih =>
      intro h
      simp only [WellFormed, Bool.and_eq_true] at h
      obtain ⟨⟨_, hwx⟩, hwy⟩ := h
      have hdet : WellFormed (Formula.binary "|"
          (Formula.binary "&" x (Formula.unary "~" y))
          (Formula.binary "&" (Formula.unary "~" x) y)) = true := by
        simp [WellFormed, is_binary, is_unary, hwx, hwy]
      obtain ⟨h1, h2, h3, h4⟩ := ih hdet
      rw [show to_implies_not (.binary "+" x y) =
            to_implies_not (.binary "|" (.binary "&" x (.unary "~" y))
                                        (.binary "&" (.unary "~" x) y)) from by
          simp [to_implies_not]]
      refine ⟨h1, h2, ?_, ?_⟩
      · intro v
        rw [h3 v]
        simp [evaluate]
        try cases evaluate x v <;> cases evaluate y v <;> simp
      · intro s hs
        rcases h4 s hs with hs' | hs'
        · left
          simp only [varsOf, List.mem_append] at hs' ⊢
          tauto
        · right; exact hs'
  | case9 x y hne1 hne2 hne3 hne4 ih =>
      intro h
      simp only [WellFormed, Bool.and_eq_true] at h
      obtain ⟨⟨_, hwx⟩, hwy⟩ := h
      have hdet : WellFormed (Formula.binary "|"
          (Formula.binary "&" x y)
          (Formula.binary "&" (Formula.unary "~" x) (Formula.unary "~" y))) = true := by
        simp [WellFormed, is_binary, is_unary, hwx, hwy]
      obtain ⟨h1, h2, h3, h4⟩ := ih hdet
      rw [show to_implies_not (.binary "<->" x y) =
            to_implies_not (.binary "|" (.binary "&" x y)
                                        (.binary "&" (.unary "~" x) (.unary "~" y))) from by
          simp [to_implies_not]]
      refine ⟨h1, h2, ?_, ?_⟩
      · intro v
        rw [h3 v]
        simp [evaluate]
        try cases evaluate x v <;> cases evaluate y v <;> simp
      · intro s hs
        rcases h4 s hs with hs' | hs'
        · left
          simp only [varsOf, List.mem_append] at hs' ⊢
          tauto
        · right; exact hs'
  | case10 x y hne1 hne2 hne3 hne4 hne5 ih =>
      intro h
      simp only [WellFormed, Bool.and_eq_true] at h
      obtain ⟨⟨_, hwx⟩, hwy⟩ := h
      have hdet : WellFormed (Formula.unary "~" (Formula.binary "&" x y)) = true := by
        simp [WellFormed, is_binary, is_unary, hwx, hwy]
      obtain ⟨h1, h2, h3, h4⟩ := ih hdet
      rw [show to_implies_not (.binary "-&" x y) =
            to_implies_not (.unary "~" (.binary "&" x y)) from by
          simp [to_implies_not]]
      refine ⟨h1, h2, ?_, ?_⟩
      · intro v
        rw [h3 v]
        simp [evaluate]
      · intro s hs
        rcases h4 s hs with hs' | hs'
        · left
          simp only [varsOf, List.mem_append] at hs' ⊢
          tauto
        · right; exact hs'
  | case11 x y hne1 hne2 hne3 hne4 hne5 hne6 ih =>
      intro h
      simp only [WellFormed, Bool.and_eq_true] at h
      obtain ⟨⟨_, hwx⟩, hwy⟩ := h
      have hdet : WellFormed (Formula.unary "~" (Formula.binary "|" x y)) = true := by
        simp [WellFormed, is_binary, is_unary, hwx, hwy]
      obtain ⟨h1, h2, h3, h4⟩ := ih hdet
      rw [show to_implies_not (.binary "-|" x y) =
            to_implies_not (.unary "~" (.binary "|" x y)) from by
          simp [to_implies_not]]
      refine ⟨h1, h2, ?_, ?_⟩
      · intro v
        rw [h3 v]
        simp [evaluate]
      · intro s hs
        rcases h4 s hs with hs' | hs'
        · left
          simp only [varsOf, List.mem_append] at hs' ⊢
          tauto
        · right; exact hs'
  | case12 r x y hne1 hne2 hne3 hne4 hne5 hne6 hne7 =>
      intro h
      simp only [WellFormed, Bool.and_eq_true] at h
      obtain ⟨⟨hb, _⟩, _⟩ := h
      simp only [is_binary, Bool.or_eq_true, decide_eq_true_eq] at hb
      tauto

/-- Combined specification of `to_implies_false` on well-formed input.
Its variable condition is stronger than for the other converters: no
variable is introduced at all. -/
theorem impfalse_spec (f : Formula) :
    WellFormed f = true →
      WellFormed (to_implies_false f) = true ∧
      UsesOnly ["->", "F"] (to_implies_false f) = true ∧
      (∀ v, evaluate (to_implies_false f) v = evaluate f v) ∧
      (∀ s, s ∈ varsOf (to_implies_false f) → s ∈ varsOf f) := by
  induction f using to_implies_false.induct with
  | case1 r h =>
      intro _
      rw [show to_implies_false (.leaf r) = .leaf r from by simp [to_implies_false, h]]
      refine ⟨?_, ?_, ?_, ?_⟩
      · simp [WellFormed, h]
      · simp [UsesOnly, h]
      · intro v; rfl
      · intro s hs; exact hs
  | case2 h =>
      intro _
      rw [show to_implies_false (.leaf "F") = .leaf "F" from by simp [to_implies_false]]
      refine ⟨by decide, by decide, ?_, ?_⟩
      · intro v; rfl
      · intro s hs; exact hs
  | case3 r h1 h2 =>
      intro h
      simp only [WellFormed, Bool.or_eq_true] at h
      rcases h with hv | hc
      · exact absurd hv (by simpa using h1)
      · simp only [is_constant, Bool.or_eq_true, decide_eq_true_eq] at hc
        rcases hc with rfl | rfl
        · rw [show to_implies_false (.leaf "T") =
                .binary "->" (.leaf "F") (.leaf "F") from by simp [to_implies_false]]
          refine ⟨by decide, by decide, ?_, ?_⟩
          · intro v; simp [evaluate]
          · intro s hs; simp [varsOf] at hs
        · exact absurd rfl h2
  | case4 r x ih =>
      intro h
      simp only [WellFormed, Bool.and_eq_true] at h
      obtain ⟨h1, h2, h3, h4⟩ := ih h.2
      rw [show to_implies_false (.unary r x) =
            .binary "->" (to_implies_false x) (.leaf "F") from by
          simp [to_implies_false]]
      refine ⟨by simp [WellFormed, is_binary, is_constant, h1], by simp [UsesOnly, h2], ?_, ?_⟩
      · intro v; simp [evaluate, h3]
      · intro s hs
        simp only [varsOf, List.mem_append] at hs
        rcases hs with hs | hs
        · exact h4 s hs
        · simp [varsOf] at hs
  | case5 x y ihx ihy =>
      intro h
      simp only [WellFormed, Bool.and_eq_true] at h
      obtain ⟨⟨_, hwx⟩, hwy⟩ := h
      obtain ⟨h1x, h2x, h3x, h4x⟩ := ihx hwx
      obtain ⟨h1y, h2y, h3y, h4y⟩ := ihy hwy
      rw [show to_implies_false (.binary "->" x y) =
            .binary "->" (to_implies_false x) (to_implies_false y) from by
          simp [to_implies_false]]
      refine ⟨by simp [WellFormed, is_binary, is_constant, h1x, h1y],
              by simp [UsesOnly, h2x, h2y], ?_, ?_⟩
      · intro v; simp [evaluate, h3x, h3y]
      · intro s hs
        simp only [varsOf, List.mem_append] at hs ⊢
        rcases hs with hs | hs
        · exact Or.inl (h4x s hs)
        · exact Or.inr (h4y s hs)
  | case6 x y hne ihx ihy =>
      intro h
      simp only [WellFormed, Bool.and_eq_true] at h
      obtain ⟨⟨_, hwx⟩, hwy⟩ := h
      obtain ⟨h1x, h2x, h3x, h4x⟩ := ihx hwx
      obtain ⟨h1y, h2y, h3y, h4y⟩ := ihy hwy
      rw [show to_implies_false (.binary "&" x y) =
            .binary "->"
              (.binary "->" (to_implies_false x)
                            (.binary "->" (to_implies_false y) (.leaf "F")))
              (.leaf "F") from by
          simp [to_implies_false]]
      refine ⟨by simp [WellFormed, is_binary, is_constant, h1x, h1y],
              by simp [UsesOnly, h2x, h2y], ?_, ?_⟩
      · intro v
        simp [evaluate, h3x, h3y]
        try cases evaluate x v <;> cases evaluate y v <;> simp
      · intro s hs
        simp only [varsOf, List.mem_append] at hs ⊢
        rcases hs with (hs | hs | hs) | hs <;>
          first
            | exact Or.inl (h4x s hs)
            | exact Or.inr (h4y s hs)
            | simp [varsOf] at hs
  | case7 x y hne1 hne2 ihx ihy =>
      intro h
      simp only [WellFormed, Bool.and_eq_true] at h
      obtain ⟨⟨_, hwx⟩, hwy⟩ := h
      obtain ⟨h1x, h2x, h3x, h4x⟩ := ihx hwx
      obtain ⟨h1y, h2y, h3y, h4y⟩ := ihy hwy
      rw [show to_implies_false (.binary "|" x y) =
            .binary "->" (.binary "->" (to_implies_false x) (.leaf "F"))
                         (to_implies_false y) from by
          simp [to_implies_false]]
      refine ⟨by simp [WellFormed, is_binary, is_constant, h1x, h1y],
              by simp [UsesOnly, h2x, h2y], ?_, ?_⟩
      · intro v
        simp [evaluate, h3x, h3y]
        try cases evaluate x v <;> cases evaluate y v <;> simp
      · intro s hs
        simp only [varsOf, List.mem_append] at hs ⊢
        rcases hs with (hs | hs) | hs <;>
          first
            | exact Or.inl (h4x s hs)
            | exact Or.inr (h4y s hs)
            | simp [varsOf] at hs
  | case8 x y hne1 hne2 hne3 ih =>
      intro h
      simp only [WellFormed, Bool.and_eq_true] at h
      obtain ⟨⟨_, hwx⟩, hwy⟩ := h
      have hdet : WellFormed (Formula.binary "|"
          (Formula.binary "&" x (Formula.unary "~" y))
          (Formula.binary "&" (Formula.unary "~" x) y)) = true := by
        simp [WellFormed, is_binary, is_unary, hwx, hwy]
      obtain ⟨h1, h2, h3, h4⟩ := ih hdet
      rw [show to_implies_false (.binary "+" x y) =
            to_implies_false (.binary "|" (.binary "&" x (.unary "~" y))
                                          (.binary "&" (.unary "~" x) y)) from by
          simp [to_implies_false]]
      refine ⟨h1, h2, ?_, ?_⟩
      · intro v
        rw [h3 v]
        simp [evaluate]
        try cases evaluate x v <;> cases evaluate y v <;> simp
      · intro s hs
        have hs' := h4 s hs
        simp only [varsOf, List.mem_append] at hs' ⊢
        tauto
  | case9 x y hne1 hne2 hne3 hne4 ih =>
      intro h
      simp only [WellFormed, Bool.and_eq_true] at h
      obtain ⟨⟨_, hwx⟩, hwy⟩ := h
      have hdet : WellFormed (Formula.binary "|"
          (Formula.binary "&" x y)
          (Formula.binary "&" (Formula.unary "~" x) (Formula.unary "~" y))) = true := by
        simp [WellFormed, is_binary, is_unary, hwx, hwy]
      obtain ⟨h1, h2, h3, h4⟩ := ih hdet
      rw [show to_implies_false (.binary "<->" x y) =
            to_implies_false (.binary "|" (.binary "&" x y)
                                          (.binary "&" (.unary "~" x) (.unary "~" y))) from by
          simp [to_implies_false]]
      refine ⟨h1, h2, ?_, ?_⟩
      · intro v
        rw [h3 v]
        simp [evaluate]
        try cases evaluate x v <;> cases evaluate y v <;> simp
      · intro s hs
        have hs' := h4 s hs
        simp only [varsOf, List.mem_append] at hs' ⊢
        tauto
  | case10 x y hne1 hne2 hne3 hne4 hne5 ih =>
      intro h
      simp only [WellFormed, Bool.and_eq_true] at h
      obtain ⟨⟨_, hwx⟩, hwy⟩ := h
      have hdet : WellFormed (Formula.unary "~" (Formula.binary "&" x y)) = true := by
        simp [WellFormed, is_binary, is_unary, hwx, hwy]
      obtain ⟨h1, h2, h3, h4⟩ := ih hdet
      rw [show to_implies_false (.binary "-&" x y) =
            to_implies_false (.unary "~" (.binary "&" x y)) from by
          simp [to_implies_false]]
      refine ⟨h1, h2, ?_, ?_⟩
      · intro v
        rw [h3 v]
        simp [evaluate]
      · intro s hs
        have hs' := h4 s hs
        simp only [varsOf, List.mem_append] at hs' ⊢
        tauto
  | case11 x y hne1 hne2 hne3 hne4 hne5 hne6 ih =>
      intro h
      simp only [WellFormed, Bool.and_eq_true] at h
      obtain ⟨⟨_, hwx⟩, hwy⟩ := h
      have hdet : WellFormed (Formula.unary "~" (Formula.binary "|" x y)) = true := by
        simp [WellFormed, is_binary, is_unary, hwx, hwy]
      obtain ⟨h1, h2, h3, h4⟩ := ih hdet
      rw [show to_implies_false (.binary "-|" x y) =
            to_implies_false (.unary "~" (.binary "|" x y)) from by
          simp [to_implies_false]]
      refine ⟨h1, h2, ?_, ?_⟩
      · intro v
        rw [h3 v]
        simp [evaluate]
      · intro s hs
        have hs' := h4 s hs
        simp only [varsOf, List.mem_append] at hs' ⊢
        tauto
  | case12 r x y hne1 hne2 hne3 hne4 hne5 hne6 hne7 =>
      intro h
      simp only [WellFormed, Bool.and_eq_true] at h
      obtain ⟨⟨hb, _⟩, _⟩ := h
      simp only [is_binary, Bool.or_eq_true, decide_eq_true_eq] at hb
      tauto

/-- Combined syntactic specification of `to_nand` on well-formed input:
well-formedness, closure in the one-operator basis, and the variable
condition.  No truth-table clause appears here: `to_nand` does not preserve
evaluation (its constant encodings and its implication identity
`nand(nand(a,a),b)` are not equivalent to their sources), which is
established separately as a counterexample to the equivalence claims. -/
theorem nand_spec (f : Formula) :
    WellFormed f = true →
      WellFormed (to_nand f) = true ∧
      UsesOnly ["-&"] (to_nand f) = true ∧
      (∀ s, s ∈ varsOf (to_nand f) → s ∈ varsOf f ∨ s = "p") := by
  induction f using to_nand_core.induct with
  | case1 r h =>
      intro _
      rw [to_nand_leaf_var r h]
      refine ⟨?_, ?_, ?_⟩
      · simp [WellFormed, h]
      · simp [UsesOnly, h]
      · intro s hs; exact Or.inl hs
  | case2 h =>
      intro _
      rw [to_nand_T]
      refine ⟨by decide, by decide, ?_⟩
      intro s hs; right; simpa [varsOf] using hs
  | case3 r h1 h2 =>
      intro h
      simp only [WellFormed, Bool.or_eq_true] at h
      rcases h with hv | hc
      · exact absurd hv (by simpa using h1)
      · simp only [is_constant, Bool.or_eq_true, decide_eq_true_eq] at hc
        rcases hc with rfl | rfl
        · exact absurd rfl h2
        · rw [to_nand_F]
          refine ⟨by decide, by decide, ?_⟩
          intro s hs; right; simpa [varsOf] using hs
  | case4 r x inner hinner heq ih =>
      intro h
      simp only [WellFormed, Bool.and_eq_true] at h
      obtain ⟨h1, h2, h4⟩ := ih h.2
      rw [to_nand_unary]
      refine ⟨by simp [WellFormed, is_binary, h1], by simp [UsesOnly, h2], ?_⟩
      intro s hs
      simp only [varsOf, List.mem_append] at hs
      rcases hs with hs | hs <;> exact h4 s hs
  | case5 x y left hleft right hright heqy heqx ihx ihy =>
      intro h
      simp only [WellFormed, Bool.and_eq_true] at h
      obtain ⟨⟨_, hwx⟩, hwy⟩ := h
      obtain ⟨h1x, h2x, h4x⟩ := ihx hwx
      obtain ⟨h1y, h2y, h4y⟩ := ihy hwy
      rw [to_nand_and]
      refine ⟨by simp [WellFormed, is_binary, h1x, h1y],
              by simp [UsesOnly, h2x, h2y], ?_⟩
      intro s hs
      simp only [varsOf, List.mem_append] at hs ⊢
      have hx := h4x s
      have hy := h4y s
      tauto
  | case6 x y left hleft right hright heqy heqx hne ihx ihy =>
      intro h
      simp only [WellFormed, Bool.and_eq_true] at h
      obtain ⟨⟨_, hwx⟩, hwy⟩ := h
      obtain ⟨h1x, h2x, h4x⟩ := ihx hwx
      obtain ⟨h1y, h2y, h4y⟩ := ihy hwy
      rw [to_nand_or]
      refine ⟨by simp [WellFormed, is_binary, h1x, h1y],
              by simp [UsesOnly, h2x, h2y], ?_⟩
      intro s hs
      simp only [varsOf, List.mem_append] at hs ⊢
      have hx := h4x s
      have hy := h4y s
      tauto
  | case7 x y left hleft right hright heqy heqx hne1 hne2 ihx ihy =>
      intro h
      simp only [WellFormed, Bool.and_eq_true] at h
      obtain ⟨⟨_, hwx⟩, hwy⟩ := h
      obtain ⟨h1x, h2x, h4x⟩ := ihx hwx
      obtain ⟨h1y, h2y, h4y⟩ := ihy hwy
      rw [to_nand_imp]
      refine ⟨by simp [WellFormed, is_binary, h1x, h1y],
              by simp [UsesOnly, h2x, h2y], ?_⟩
      intro s hs
      simp only [varsOf, List.mem_append] at hs ⊢
      have hx := h4x s
      have hy := h4y s
      tauto
  | case8 x y left hleft right hright heqand heqor hne1 hne2 hne3 ihor ihand ih3 =>
      intro h
      simp only [WellFormed, Bool.and_eq_true] at h
      obtain ⟨⟨_, hwx⟩, hwy⟩ := h
      have hwOr : WellFormed (Formula.binary "|" x y) = true := by
        simp [WellFormed, is_binary, hwx, hwy]
      have hwAnd : WellFormed (Formula.binary "&" x y) = true := by
        simp [WellFormed, is_binary, hwx, hwy]
      have hL : to_nand (.binary "|" x y) = left := by simp [to_nand, heqor]
      have hR : to_nand (.binary "&" x y) = right := by simp [to_nand, heqand]
      obtain ⟨o1, o2, o4⟩ := ihor hwOr
      obtain ⟨a1, a2, a4⟩ := ihand hwAnd
      rw [hL] at o1 o2 o4
      rw [hR] at a1 a2 a4
      have hwMid : WellFormed (Formula.binary "&" left (Formula.binary "-&" right right)) = true := by
        simp [WellFormed, is_binary, o1, a1]
      obtain ⟨m1, m2, m4⟩ := ih3 hwMid
      have hmain : to_nand (.binary "+" x y) =
          to_nand (.binary "&" left (.binary "-&" right right)) := by
        rw [to_nand_xor, hL, hR]
      rw [hmain]
      refine ⟨m1, m2, ?_⟩
      intro s hs
      rcases m4 s hs with hs1 | hs1
      · simp only [varsOf, List.mem_append] at hs1 ⊢
        have ho := o4 s
        have ha := a4 s
        simp only [varsOf, List.mem_append] at ho ha
        tauto
      · right; exact hs1
  | case9 x y inner hinner heq hne1 hne2 hne3 hne4 ih =>
      intro h
      simp only [WellFormed, Bool.and_eq_true] at h
      obtain ⟨⟨_, hwx⟩, hwy⟩ := h
      have hwXor : WellFormed (Formula.binary "+" x y) = true := by
        simp [WellFormed, is_binary, hwx, hwy]
      obtain ⟨i1, i2, i4⟩ := ih hwXor
      rw [to_nand_iff]
      refine ⟨by simp [WellFormed, is_binary, i1], by simp [UsesOnly, i2], ?_⟩
      intro s hs
      simp only [varsOf, List.mem_append] at hs ⊢
      have hi := i4 s
      simp only [varsOf, List.mem_append] at hi
      tauto
  | case10 x y left hleft right hright heqy heqx hne1 hne2 hne3 hne4 hne5 ihx ihy =>
      intro h
      simp only [WellFormed, Bool.and_eq_true] at h
      obtain ⟨⟨_, hwx⟩, hwy⟩ := h
      obtain ⟨h1x, h2x, h4x⟩ := ihx hwx
      obtain ⟨h1y, h2y, h4y⟩ := ihy hwy
      rw [to_nand_nand]
      refine ⟨by simp [WellFormed, is_binary, h1x, h1y],
              by simp [UsesOnly, h2x, h2y], ?_⟩
      intro s hs
      simp only [varsOf, List.mem_append] at hs ⊢
      have hx := h4x s
      have hy := h4y s
      tauto
  | case11 x y inner hinner heq hne1 hne2 hne3 hne4 hne5 hne6 ih =>
      intro h
      simp only [WellFormed, Bool.and_eq_true] at h
      obtain ⟨⟨_, hwx⟩, hwy⟩ := h
      have hwOr : WellFormed (Formula.binary "|" x y) = true := by
        simp [WellFormed, is_binary, hwx, hwy]
      obtain ⟨i1, i2, i4⟩ := ih hwOr
      rw [to_nand_nor]
      refine ⟨by simp [WellFormed, is_binary, i1], by simp [UsesOnly, i2], ?_⟩
      intro s hs
      simp only [varsOf, List.mem_append] at hs ⊢
      have hi := i4 s
      simp only [varsOf, List.mem_append] at hi
      tauto
  | case12 r x y hne1 hne2 hne3 hne4 hne5 hne6 hne7 left hleft right hright heqy heqx ihx ihy =>
      intro h
      simp only [WellFormed, Bool.and_eq_true] at h
      obtain ⟨⟨hb, _⟩, _⟩ := h
      simp only [is_binary, Bool.or_eq_true, decide_eq_true_eq] at hb
      tauto

/-- `to_not_and_or` is the identity on well-formed formulas already in its
basis. -/
theorem nao_fixes (g : Formula) :
    UsesOnly ["~", "&", "|"] g = true → WellFormed g = true →
      to_not_and_or g = some g := by
  induction g with
  | leaf r =>
      intro hu hw
      simp only [UsesOnly, Bool.or_eq_true] at hu
      simp only [WellFormed, Bool.or_eq_true] at hw
      rcases hu with hv | hmem
      · simp [to_not_and_or, hv]
      · rcases hw with hv | hc
        · simp [to_not_and_or, hv]
        · simp at hmem
          simp only [is_constant, Bool.or_eq_true, decide_eq_true_eq] at hc
          rcases hc with rfl | rfl <;> rcases hmem with h | h | h <;> simp_all
  | unary r x ih =>
      intro hu hw
      simp only [UsesOnly, Bool.and_eq_true] at hu
      simp only [WellFormed, Bool.and_eq_true] at hw
      have hr : r = "~" := by simpa [is_unary] using hw.1
      subst hr
      rw [show to_not_and_or (.unary "~" x) =
            (to_not_and_or x).map (fun g => .unary "~" g) from by
          simp [to_not_and_or]
          cases to_not_and_or x <;> rfl]
      rw [ih hu.2 hw.2]
      rfl
  | binary r x y ihx ihy =>
      intro hu hw
      simp only [UsesOnly, Bool.and_eq_true] at hu
      simp only [WellFormed, Bool.and_eq_true] at hw
      obtain ⟨⟨hmem, hux⟩, huy⟩ := hu
      obtain ⟨⟨hbin, hwx⟩, hwy⟩ := hw
      simp at hmem
      simp only [is_binary, Bool.or_eq_true, decide_eq_true_eq] at hbin
      rcases hmem with rfl | rfl | rfl
      · simp at hbin
      · simp [to_not_and_or, ihx hux hwx, ihy huy hwy]
      · simp [to_not_and_or, ihx hux hwx, ihy huy hwy]

/-- `to_not_and` is the identity on well-formed formulas already in its
basis. -/
theorem na_fixes (g : Formula) :
    UsesOnly ["~", "&"] g = true → WellFormed g = true →
      to_not_and g = g := by
  induction g with
  | leaf r =>
      intro hu hw
      simp only [UsesOnly, Bool.or_eq_true] at hu
      simp only [WellFormed, Bool.or_eq_true] at hw
      rcases hu with hv | hmem
      · simp [to_not_and, hv]
      · rcases hw with hv | hc
        · simp [to_not_and, hv]
        · simp at hmem
          simp only [is_constant, Bool.or_eq_true, decide_eq_true_eq] at hc
          rcases hc with rfl | rfl <;> rcases hmem with h | h <;> simp_all
  | unary r x ih =>
      intro hu hw
      simp only [UsesOnly, Bool.and_eq_true] at hu
      simp only [WellFormed, Bool.and_eq_true] at hw
      have hr : r = "~" := by simpa [is_unary] using hw.1
      subst hr
      rw [show to_not_and (.unary "~" x) = .unary "~" (to_not_and x) from by
          simp [to_not_and]]
      rw [ih hu.2 hw.2]
  | binary r x y ihx ihy =>
      intro hu hw
      simp only [UsesOnly, Bool.and_eq_true] at hu
      simp only [WellFormed, Bool.and_eq_true] at hw
      obtain ⟨⟨hmem, hux⟩, huy⟩ := hu
      obtain ⟨⟨hbin, hwx⟩, hwy⟩ := hw
      simp at hmem
      simp only [is_binary, Bool.or_eq_true, decide_eq_true_eq] at hbin
      rcases hmem with rfl | rfl
      · simp at hbin
      · rw [show to_not_and (.binary "&" x y) =
              .binary "&" (to_not_and x) (to_not_and y) from by simp [to_not_and]]
        rw [ihx hux hwx, ihy huy hwy]

/-- `to_nand` is the identity on well-formed formulas already in its basis. -/
theorem nand_fixes (g : Formula) :
    UsesOnly ["-&"] g = true → WellFormed g = true →
      to_nand g = g := by
  induction g with
  | leaf r =>
      intro hu hw
      simp only [UsesOnly, Bool.or_eq_true] at hu
      simp only [WellFormed, Bool.or_eq_true] at hw
      rcases hu with hv | hmem
      · simp [to_nand_leaf_var r hv]
      · rcases hw with hv | hc
        · simp [to_nand_leaf_var r hv]
        · simp at hmem
          simp only [is_constant, Bool.or_eq_true, decide_eq_true_eq] at hc
          rcases hc with rfl | rfl <;> simp_all
  | unary r x ih =>
      intro hu hw
      simp only [UsesOnly, Bool.and_eq_true] at hu
      simp only [WellFormed, Bool.and_eq_true] at hw
      have hr : r = "~" := by simpa [is_unary] using hw.1
      have hmem := hu.1
      rw [hr] at hmem
      simp at hmem
  | binary r x y ihx ihy =>
      intro hu hw
      simp only [UsesOnly, Bool.and_eq_true] at hu
      simp only [WellFormed, Bool.and_eq_true] at hw
      obtain ⟨⟨hmem, hux⟩, huy⟩ := hu
      obtain ⟨⟨hbin, hwx⟩, hwy⟩ := hw
      simp at hmem
      subst hmem
      rw [to_nand_nand, ihx hux hwx, ihy huy hwy]

/-- `to_implies_not` is the identity on well-formed formulas already in its
basis. -/
theorem impnot_fixes (g : Formula) :
    UsesOnly ["->", "~"] g = true → WellFormed g = true →
      to_implies_not g = g := by
  induction g with
  | leaf r =>
      intro hu hw
      simp only [UsesOnly, Bool.or_eq_true] at hu
      simp only [WellFormed, Bool.or_eq_true] at hw
      rcases hu with hv | hmem
      · simp [to_implies_not, hv]
      · rcases hw with hv | hc
        · simp [to_implies_not, hv]
        · simp at hmem
          simp only [is_constant, Bool.or_eq_true, decide_eq_true_eq] at hc
          rcases hc with rfl | rfl <;> rcases hmem with h | h <;> simp_all
  | unary r x ih =>
      intro hu hw
      simp only [UsesOnly, Bool.and_eq_true] at hu
      simp only [WellFormed, Bool.and_eq_true] at hw
      have hr : r = "~" := by simpa [is_unary] using hw.1
      subst hr
      rw [show to_implies_not (.unary "~" x) = .unary "~" (to_implies_not x) from by
          simp [to_implies_not]]
      rw [ih hu.2 hw.2]
  | binary r x y ihx ihy =>
      intro hu hw
      simp only [UsesOnly, Bool.and_eq_true] at hu
      simp only [WellFormed, Bool.and_eq_true] at hw
      obtain ⟨⟨hmem, hux⟩, huy⟩ := hu
      obtain ⟨⟨hbin, hwx⟩, hwy⟩ := hw
      simp at hmem
      simp only [is_binary, Bool.or_eq_true, decide_eq_true_eq] at hbin
      rcases hmem with rfl | rfl
      · rw [show to_implies_not (.binary "->" x y) =
              .binary "->" (to_implies_not x) (to_implies_not y) from by
            simp [to_implies_not]]
        rw [ihx hux hwx, ihy huy hwy]
      · simp at hbin

/-- `to_implies_false` is the identity on well-formed formulas already in
its basis. -/
theorem impfalse_fixes (g : Formula) :
    UsesOnly ["->", "F"] g = true → WellFormed g = true →
      to_implies_false g = g := by
  induction g with
  | leaf r =>
      intro hu hw
      simp only [UsesOnly, Bool.or_eq_true] at hu
      simp only [WellFormed, Bool.or_eq_true] at hw
      rcases hu with hv | hmem
      · simp [to_implies_false, hv]
      · rcases hw with hv | hc
        · simp [to_implies_false, hv]
        · simp at hmem
          simp only [is_constant, Bool.or_eq_true, decide_eq_true_eq] at hc
          rcases hc with rfl | rfl
          · rcases hmem with h | h <;> simp_all
          · simp [to_implies_false]
  | unary r x ih =>
      intro hu hw
      simp only [UsesOnly, Bool.and_eq_true] at hu
      simp only [WellFormed, Bool.and_eq_true] at hw
      have hr : r = "~" := by simpa [is_unary] using hw.1
      have hmem := hu.1
      rw [hr] at hmem
      simp at hmem
  | binary r x y ihx ihy =>
      intro hu hw
      simp only [UsesOnly, Bool.and_eq_true] at hu
      simp only [WellFormed, Bool.and_eq_true] at hw
      obtain ⟨⟨hmem, hux⟩, huy⟩ := hu
      obtain ⟨⟨hbin, hwx⟩, hwy⟩ := hw
      simp at hmem
      simp only [is_binary, Bool.or_eq_true, decide_eq_true_eq] at hbin
      rcases hmem with rfl | rfl
      · rw [show to_implies_false (.binary "->" x y) =
              .binary "->" (to_implies_false x) (to_implies_false y) from by
            simp [to_implies_false]]
        rw [ihx hux hwx, ihy huy hwy]
      · simp at hbin

/-- Whether the label `t` occurs anywhere in the formula (as leaf or
operator). -/
def hasLabel (t : String) : Formula → Bool
  | .leaf r => r = t
  | .unary r x => r = t || hasLabel t x
  | .binary r x y => r = t || hasLabel t x || hasLabel t y

/-- A label that is neither a variable nor in `S` cannot occur in a formula
using only `S`. -/
theorem usesOnly_hasLabel (t : String) (ht : is_variable t = false)
    (S : List String) (hS : S.contains t = false) (g : Formula) :
    UsesOnly S g = true → hasLabel t g = false := by
  induction g with
  | leaf r =>
      intro hu
      simp only [UsesOnly, Bool.or_eq_true] at hu
      simp only [hasLabel, decide_eq_false_iff_not]
      intro hr
      subst hr
      rcases hu with hu | hu
      · rw [hu] at ht; cases ht
      · rw [hu] at hS; cases hS
  | unary r x ih =>
      intro hu
      simp only [UsesOnly, Bool.and_eq_true] at hu
      simp only [hasLabel, Bool.or_eq_false_iff, decide_eq_false_iff_not]
      refine ⟨?_, ih hu.2⟩
      intro hr
      subst hr
      rw [hu.1] at hS; cases hS
  | binary r x y ihx ihy =>
      intro hu
      simp only [UsesOnly, Bool.and_eq_true] at hu
      simp only [hasLabel, Bool.or_eq_false_iff, decide_eq_false_iff_not]
      refine ⟨⟨?_, ihx hu.1.2⟩, ihy hu.2⟩
      intro hr
      subst hr
      rw [hu.1.1] at hS; cases hS

/-- Claim C1: for every formula F and every assignment,
`evaluate(F, assignment) == evaluate(to_nand(F), assignment)`, including for
the constants.  This FAILS on the code: the nand encodings of `T`, of `F`
and of implication are not equivalent to their sources.  This theorem
evaluates the code at the failing inputs: under the assignment sending
every variable to false (and `q` to true in the implication case), `T`
converts to a formula evaluating to false, `F` to one evaluating to true,
and `p -> q` to one evaluating to false. -/
theorem C1_to_nand_not_equivalent :
    evaluate (.leaf "T") (fun _ => false) = true ∧
    evaluate (to_nand (.leaf "T")) (fun _ => false) = false ∧
    evaluate (.leaf "F") (fun _ => false) = false ∧
    evaluate (to_nand (.leaf "F")) (fun _ => false) = true ∧
    evaluate (.binary "->" (.leaf "p") (.leaf "q")) (fun s => s == "q") = true ∧
    evaluate (to_nand (.binary "->" (.leaf "p") (.leaf "q"))) (fun s => s == "q") = false := by
  refine ⟨by decide, ?_, by decide, ?_, by decide, ?_⟩
  · rw [to_nand_T]; decide
  · rw [to_nand_F]; decide
  · rw [to_nand_imp, to_nand_leaf_var "p" (by decide),
        to_nand_leaf_var "q" (by decide)]
    decide

/-- Claim C2: for every well-formed formula F and every assignment, each of
the four converters `to_not_and_or`, `to_not_and`, `to_implies_not` and
`to_implies_false` produces a formula with the same truth table as F. -/
theorem C2_four_converters_equivalent (f : Formula) (h : WellFormed f = true)
    (v : String → Bool) :
    (∀ g, to_not_and_or f = some g → evaluate g v = evaluate f v) ∧
    evaluate (to_not_and f) v = evaluate f v ∧
    evaluate (to_implies_not f) v = evaluate f v ∧
    evaluate (to_implies_false f) v = evaluate f v := by
  obtain ⟨g0, hg0, _, _, he0, _⟩ := nao_spec f h
  obtain ⟨_, _, he1, _⟩ := na_spec f h
  obtain ⟨_, _, he2, _⟩ := impnot_spec f h
  obtain ⟨_, _, he3, _⟩ := impfalse_spec f h
  refine ⟨?_, he1 v, he2 v, he3 v⟩
  intro g hg
  rw [hg0] at hg
  cases hg
  exact he0 v

/-- Witness for C2 at the well-formed input `(p -> q)` under the
all-false assignment. -/
theorem C2_witness :
    WellFormed (.binary "->" (.leaf "p") (.leaf "q")) = true ∧
    ((∀ g, to_not_and_or (.binary "->" (.leaf "p") (.leaf "q")) = some g →
        evaluate g (fun _ => false) =
          evaluate (.binary "->" (.leaf "p") (.leaf "q")) (fun _ => false)) ∧
      evaluate (to_not_and (.binary "->" (.leaf "p") (.leaf "q"))) (fun _ => false) =
        evaluate (.binary "->" (.leaf "p") (.leaf "q")) (fun _ => false) ∧
      evaluate (to_implies_not (.binary "->" (.leaf "p") (.leaf "q"))) (fun _ => false) =
        evaluate (.binary "->" (.leaf "p") (.leaf "q")) (fun _ => false) ∧
      evaluate (to_implies_false (.binary "->" (.leaf "p") (.leaf "q"))) (fun _ => false) =
        evaluate (.binary "->" (.leaf "p") (.leaf "q")) (fun _ => false)) :=
  ⟨by decide, C2_four_converters_equivalent _ (by decide) _⟩

/-- Claim C3: for every well-formed formula F, the operator and constant
labels of each converter output lie in the converter's declared basis
(variable leaves being the only other leaves), and in particular the
constant `T` never occurs in the output of `to_implies_false`. -/
theorem C3_basis_closure (f : Formula) (h : WellFormed f = true) :
    (∀ g, to_not_and_or f = some g → UsesOnly ["~", "&", "|"] g = true) ∧
    UsesOnly ["~", "&"] (to_not_and f) = true ∧
    UsesOnly ["-&"] (to_nand f) = true ∧
    UsesOnly ["->", "~"] (to_implies_not f) = true ∧
    UsesOnly ["->", "F"] (to_implies_false f) = true ∧
    hasLabel "T" (to_implies_false f) = false := by
  obtain ⟨g0, hg0, _, hu0, _, _⟩ := nao_spec f h
  obtain ⟨_, hu1, _, _⟩ := na_spec f h
  obtain ⟨_, hu2, _⟩ := nand_spec f h
  obtain ⟨_, hu3, _, _⟩ := impnot_spec f h
  obtain ⟨_, hu4, _, _⟩ := impfalse_spec f h
  refine ⟨?_, hu1, hu2, hu3, hu4, ?_⟩
  · intro g hg
    rw [hg0] at hg
    cases hg
    exact hu0
  · exact usesOnly_hasLabel "T" (by decide) ["->", "F"] (by decide) _ hu4

/-- Witness for C3 at the well-formed input `nor(T, xor(p, q))`, which
contains exotic operators and a constant. -/
theorem C3_witness :
    WellFormed (.binary "-|" (.leaf "T") (.binary "+" (.leaf "p") (.leaf "q"))) = true ∧
    ((∀ g, to_not_and_or (.binary "-|" (.leaf "T") (.binary "+" (.leaf "p") (.leaf "q"))) = some g →
        UsesOnly ["~", "&", "|"] g = true) ∧
      UsesOnly ["~", "&"] (to_not_and (.binary "-|" (.leaf "T") (.binary "+" (.leaf "p") (.leaf "q")))) = true ∧
      UsesOnly ["-&"] (to_nand (.binary "-|" (.leaf "T") (.binary "+" (.leaf "p") (.leaf "q")))) = true ∧
      UsesOnly ["->", "~"] (to_implies_not (.binary "-|" (.leaf "T") (.binary "+" (.leaf "p") (.leaf "q")))) = true ∧
      UsesOnly ["->", "F"] (to_implies_false (.binary "-|" (.leaf "T") (.binary "+" (.leaf "p") (.leaf "q")))) = true ∧
      hasLabel "T" (to_implies_false (.binary "-|" (.leaf "T") (.binary "+" (.leaf "p") (.leaf "q")))) = false) :=
  ⟨by decide, C3_basis_closure _ (by decide)⟩

/-- Claim C4: `to_nand` maps the constant `T` to exactly
`nand(nand(p,p), nand(p,p))` and the constant `F` to exactly
`nand(p, nand(p,p))`, for the fixed variable `p`. -/
theorem C4_nand_constants :
    to_nand (.leaf "T") =
      .binary "-&" (.binary "-&" (.leaf "p") (.leaf "p"))
                   (.binary "-&" (.leaf "p") (.leaf "p")) ∧
    to_nand (.leaf "F") =
      .binary "-&" (.leaf "p") (.binary "-&" (.leaf "p") (.leaf "p")) :=
  ⟨to_nand_T, to_nand_F⟩

/-- Claim C5: re-applying a converter to its own output keeps basis closure
and equivalence with the original formula.  For `to_nand` the equivalence
half FAILS on the code (same defect as C1): re-conversion is the identity on
the already-converted output, so the output of `to_nand(to_nand(T))` still
evaluates to false under the all-false assignment while `T` evaluates to
true.  This theorem evaluates the code at that failing input. -/
theorem C5_double_nand_not_equivalent :
    to_nand (to_nand (.leaf "T")) = to_nand (.leaf "T") ∧
    UsesOnly ["-&"] (to_nand (to_nand (.leaf "T"))) = true ∧
    evaluate (to_nand (to_nand (.leaf "T"))) (fun _ => false) = false ∧
    evaluate (.leaf "T") (fun _ => false) = true := by
  have hid : to_nand (.binary "-&" (.binary "-&" (.leaf "p") (.leaf "p"))
                                   (.binary "-&" (.leaf "p") (.leaf "p"))) =
      .binary "-&" (.binary "-&" (.leaf "p") (.leaf "p"))
                   (.binary "-&" (.leaf "p") (.leaf "p")) := by
    simp [to_nand_nand, to_nand_leaf_var]
  refine ⟨?_, ?_, ?_, by decide⟩
  · rw [to_nand_T]
    exact hid
  · rw [to_nand_T, hid]
    decide
  · rw [to_nand_T, hid]
    decide

/-- Claim C6: `to_not_and` eliminates `or` by De Morgan's law, literally
rebuilding `not(and(not(to_not_and A), not(to_not_and B)))`, and on the
input `p | q` it returns exactly `~(~p & ~q)`. -/
theorem C6_or_de_morgan :
    (∀ A B, to_not_and (.binary "|" A B) =
        .unary "~" (.binary "&" (.unary "~" (to_not_and A))
                                (.unary "~" (to_not_and B)))) ∧
    to_not_and (.binary "|" (.leaf "p") (.leaf "q")) =
      .unary "~" (.binary "&" (.unary "~" (.leaf "p")) (.unary "~" (.leaf "q"))) := by
  constructor
  · intro A B
    simp [to_not_and]
  · simp [to_not_and, show is_variable "q" = true from by decide]

/-- Claim C7: the nor case of `to_nand` takes the prescribed detour: it
first converts the disjunction and then negates it with the not-rule
`nand(x,x)` (the second conjunct is that not-rule itself). -/
theorem C7_nor_via_or :
    (∀ A B, to_nand (.binary "-|" A B) =
        .binary "-&" (to_nand (.binary "|" A B)) (to_nand (.binary "|" A B))) ∧
    (∀ x, to_nand (.unary "~" x) = .binary "-&" (to_nand x) (to_nand x)) :=
  ⟨fun A B => to_nand_nor A B, fun x => to_nand_unary "~" x⟩

/-- Claim C8: on well-formed input the fall-through of `to_not_and_or`
(the implicit Python `None`) is unreachable: the converter always returns a
formula.  The other four converters return a formula on every input by
construction. -/
theorem C8_totality (f : Formula) (h : WellFormed f = true) :
    ∃ g, to_not_and_or f = some g := by
  obtain ⟨g, hg, _⟩ := nao_spec f h
  exact ⟨g, hg⟩

/-- Witness for C8 at the well-formed input `xor(p, T)`. -/
theorem C8_witness :
    WellFormed (.binary "+" (.leaf "p") (.leaf "T")) = true ∧
    ∃ g, to_not_and_or (.binary "+" (.leaf "p") (.leaf "T")) = some g :=
  ⟨by decide, C8_totality _ (by decide)⟩

/-- Claim C9: each converter is syntactically idempotent on well-formed
input: re-applying it to its own output returns the identical formula. -/
theorem C9_syntactic_idempotence (f : Formula) (h : WellFormed f = true) :
    (to_not_and_or f).bind to_not_and_or = to_not_and_or f ∧
    to_not_and (to_not_and f) = to_not_and f ∧
    to_nand (to_nand f) = to_nand f ∧
    to_implies_not (to_implies_not f) = to_implies_not f ∧
    to_implies_false (to_implies_false f) = to_implies_false f := by
  obtain ⟨g0, hg0, hw0, hu0, _, _⟩ := nao_spec f h
  obtain ⟨hw1, hu1, _, _⟩ := na_spec f h
  obtain ⟨hw2, hu2, _⟩ := nand_spec f h
  obtain ⟨hw3, hu3, _, _⟩ := impnot_spec f h
  obtain ⟨hw4, hu4, _, _⟩ := impfalse_spec f h
  refine ⟨?_, na_fixes _ hu1 hw1, nand_fixes _ hu2 hw2,
          impnot_fixes _ hu3 hw3, impfalse_fixes _ hu4 hw4⟩
  rw [hg0]
  simpa using nao_fixes g0 hu0 hw0

/-- Witness for C9 at the well-formed input `nor(T, p)`. -/
theorem C9_witness :
    WellFormed (.binary "-|" (.leaf "T") (.leaf "p")) = true ∧
    ((to_not_and_or (.binary "-|" (.leaf "T") (.leaf "p"))).bind to_not_and_or =
        to_not_and_or (.binary "-|" (.leaf "T") (.leaf "p")) ∧
      to_not_and (to_not_and (.binary "-|" (.leaf "T") (.leaf "p"))) =
        to_not_and (.binary "-|" (.leaf "T") (.leaf "p")) ∧
      to_nand (to_nand (.binary "-|" (.leaf "T") (.leaf "p"))) =
        to_nand (.binary "-|" (.leaf "T") (.leaf "p")) ∧
      to_implies_not (to_implies_not (.binary "-|" (.leaf "T") (.leaf "p"))) =
        to_implies_not (.binary "-|" (.leaf "T") (.leaf "p")) ∧
      to_implies_false (to_implies_false (.binary "-|" (.leaf "T") (.leaf "p"))) =
        to_implies_false (.binary "-|" (.leaf "T") (.leaf "p"))) :=
  ⟨by decide, C9_syntactic_idempotence _ (by decide)⟩

/-- Claim C10: a converter output only mentions the variables of its input
plus possibly the reserved variable `p` used to encode constants, and
`to_implies_false` introduces no variable at all. -/
theorem C10_variables (f : Formula) (h : WellFormed f = true) :
    (∀ g, to_not_and_or f = some g → ∀ s, s ∈ varsOf g → s ∈ varsOf f ∨ s = "p") ∧
    (∀ s, s ∈ varsOf (to_not_and f) → s ∈ varsOf f ∨ s = "p") ∧
    (∀ s, s ∈ varsOf (to_nand f) → s ∈ varsOf f ∨ s = "p") ∧
    (∀ s, s ∈ varsOf (to_implies_not f) → s ∈ varsOf f ∨ s = "p") ∧
    (∀ s, s ∈ varsOf (to_implies_false f) → s ∈ varsOf f) := by
  obtain ⟨g0, hg0, _, _, _, hv0⟩ := nao_spec f h
  obtain ⟨_, _, _, hv1⟩ := na_spec f h
  obtain ⟨_, _, hv2⟩ := nand_spec f h
  obtain ⟨_, _, _, hv3⟩ := impnot_spec f h
  obtain ⟨_, _, _, hv4⟩ := impfalse_spec f h
  refine ⟨?_, hv1, hv2, hv3, hv4⟩
  intro g hg
  rw [hg0] at hg
  cases hg
  exact hv0

/-- Witness for C10 at the well-formed input `iff(T, q)`. -/
theorem C10_witness :
    WellFormed (.binary "<->" (.leaf "T") (.leaf "q")) = true ∧
    ((∀ g, to_not_and_or (.binary "<->" (.leaf "T") (.leaf "q")) = some g →
        ∀ s, s ∈ varsOf g → s ∈ varsOf (.binary "<->" (.leaf "T") (.leaf "q")) ∨ s = "p") ∧
      (∀ s, s ∈ varsOf (to_not_and (.binary "<->" (.leaf "T") (.leaf "q"))) →
        s ∈ varsOf (.binary "<->" (.leaf "T") (.leaf "q")) ∨ s = "p") ∧
      (∀ s, s ∈ varsOf (to_nand (.binary "<->" (.leaf "T") (.leaf "q"))) →
        s ∈ varsOf (.binary "<->" (.leaf "T") (.leaf "q")) ∨ s = "p") ∧
      (∀ s, s ∈ varsOf (to_implies_not (.binary "<->" (.leaf "T") (.leaf "q"))) →
        s ∈ varsOf (.binary "<->" (.leaf "T") (.leaf "q")) ∨ s = "p") ∧
      (∀ s, s ∈ varsOf (to_implies_false (.binary "<->" (.leaf "T") (.leaf "q"))) →
        s ∈ varsOf (.binary "<->" (.leaf "T") (.leaf "q")))) :=
  ⟨by decide, C10_variables _ (by decide)⟩
